import Mathlib

/-!
# Verification of the price-polling subsystem of `exchange_api.py`

Shallow embedding of the background price-polling subsystem with pluggable
exchange backends.  Python strings are modelled as `List Char`, Python dicts
as association lists in insertion order where a later assignment to the same
key wins (`pyDictGet` reads the *last* binding), and the opaque remote venue
(the `ccxt` exchange object) as a record of `Except`-valued responses: an
`Except.error` models the remote call raising and `Except.ok` the call
returning.  A ccxt ticker object is modelled by its `last` price field, the
only field the code reads.  All functions of the code are total here because
every Python function in scope catches all exceptions internally.
-/

/-- A Python string, as a list of characters. -/
abbrev Str := List Char

/-- A venue price (Python float).  The claims never compute on prices. -/
abbrev Price := Float

/-- A Python `Dict[str, float]` price table, in insertion order. -/
abbrev Table := List (Str × Price)

/-- First-match association lookup (helper for `pyDictGet`). -/
def pyLookup {α : Type} : List (Str × α) → Str → Option α
  | [], _ => none
  | (k, v) :: rest, key => if key = k then some v else pyLookup rest key

/-- Python `d.get(key)` on a dict represented as its assignment history:
the most recent binding of `key` wins. -/
def pyDictGet {α : Type} (d : List (Str × α)) (key : Str) : Option α :=
  pyLookup d.reverse key

/-- Python `s.lower()` (ASCII case folding suffices for the names in scope). -/
def pyLower (s : Str) : Str := s.map Char.toLower

/-- Python slice `s[:-4]`: everything but the last four characters
(empty when `len(s) <= 4`). -/
def pySliceDropLast4 (s : Str) : Str := s.take (s.length - 4)

/-- Python slice `s[-4:]`: the last four characters
(the whole string when `len(s) <= 4`). -/
def pySliceLast4 (s : Str) : Str := s.drop (s.length - 4)

/-- Python `s.replace(c, "")`: delete every occurrence of `c`. -/
def pyReplaceDel (s : Str) (c : Char) : Str := s.filter (fun a => a ≠ c)

/-- The opaque remote venue behind a backend (the ccxt exchange object):
each field models one remote entry point, `Except.error` modelling a raised
exception.  `fetchTickers` is the bulk call `fetch_tickers()`,
`fetchTickersBatch` the symbol-list overload `fetch_tickers(symbols)`,
`loadMarkets` returns the venue-native symbols that exist as markets, and
`fetchTicker` is the single-symbol `fetch_ticker(symbol)` returning the
`last` price of the ticker. -/
structure Venue where
  fetchTickers : Except Str Table
  loadMarkets : Except Str (List Str)
  fetchTickersBatch : List Str → Except Str Table
  fetchTicker : Str → Except Str Price

namespace OKCoinAPI

/-- Embedding of `OKCoinAPI.symbol_map`: the explicit Binance-format → OKCoin-format
trading-pair table, in source order. -/
def symbol_map : List (Str × Str) :=
  [ ("BTCUSDT".data, "BTC/USDT".data)
  , ("ETHUSDT".data, "ETH/USDT".data)
  , ("LTCUSDT".data, "LTC/USDT".data)
  , ("XRPUSDT".data, "XRP/USDT".data)
  , ("ETCUSDT".data, "ETC/USDT".data)
  , ("BCHUSDT".data, "BCH/USDT".data)
  , ("EOSUSDT".data, "EOS/USDT".data)
  , ("BSVUSDT".data, "BSV/USDT".data)
  , ("TRXUSDT".data, "TRX/USDT".data)
  , ("ADAUSDT".data, "ADA/USDT".data)
  , ("DOGEUSDT".data, "DOGE/USDT".data)
  , ("SOLUSDT".data, "SOL/USDT".data)
  , ("DOTUSDT".data, "DOT/USDT".data)
  , ("MATICUSDT".data, "MATIC/USDT".data)
  , ("BNBUSDT".data, "BNB/USDT".data) ]

/-- Embedding of `reverse_symbol_map = {v: k for k, v in symbol_map.items()}`. -/
def reverse_symbol_map : List (Str × Str) :=
  symbol_map.map (fun p => (p.2, p.1))

/-- The fallback f-string `f"{symbol[:-4]}/{symbol[-4:]}"` of
`_convert_symbol`: insert `'/'` before the last four characters. -/
def fallbackSplit (symbol : Str) : Str :=
  pySliceDropLast4 symbol ++ '/' :: pySliceLast4 symbol

/-- Embedding of `OKCoinAPI._convert_symbol`: Binance (canonical) format → OKCoin format.
A symbol already containing `'/'` is returned unchanged; otherwise the
explicit map is consulted, with the fallback `f"{symbol[:-4]}/{symbol[-4:]}"`. -/
def _convert_symbol (symbol : Str) : Str :=
  if '/' ∈ symbol then symbol
  else
    match pyDictGet symbol_map symbol with
    | some v => v
    | none => fallbackSplit symbol

/-- Embedding of `OKCoinAPI._reverse_convert_symbol`: OKCoin format → Binance (canonical)
format.  A symbol without `'/'` is returned unchanged; otherwise the reverse
map is consulted, with the fallback `symbol.replace('/', '')`. -/
def _reverse_convert_symbol (symbol : Str) : Str :=
  if '/' ∈ symbol then
    match pyDictGet reverse_symbol_map symbol with
    | some v => v
    | none => pyReplaceDel symbol '/'
  else symbol

/-- Embedding of `OKCoinAPI.get_ticker_price`: translate to the OKCoin-format symbol,
fetch the ticker, and return its `last` price; any exception is caught and
`None` is returned. -/
def get_ticker_price (venue : Venue) (symbol : Str) : Option Price :=
  match venue.fetchTicker (_convert_symbol symbol) with
  | .ok p => some p
  | .error _ => none

/-- The dict comprehension of `OKCoinAPI.get_all_tickers` and of the bulk
branch of `OKCoinAPI._fetch_prices`: re-key every venue ticker by its
canonical (Binance-format) symbol, keeping its `last` price.
(`_reverse_convert_symbol` is total, so the per-entry `try` of
`_fetch_prices` never fires.) -/
def bulkTable : Table → Table → Table
  | [], result => result
  | (symbol, p) :: rest, result =>
    bulkTable rest (result ++ [(_reverse_convert_symbol symbol, p)])

/-- Embedding of `OKCoinAPI.get_all_tickers`: bulk fetch; on success re-key each entry by
its canonical symbol, on any exception return the empty table. -/
def get_all_tickers (venue : Venue) : Table :=
  match venue.fetchTickers with
  | .ok tickers => bulkTable tickers []
  | .error _ => []

/-- The per-symbol fallback loops of `OKCoinAPI._fetch_prices`
(lines 260-267 and 271-278, identical bodies): fetch each requested symbol
individually, with the `try` inside the loop, so one failure skips only
that symbol. -/
def indivLoop (venue : Venue) : List Str → Table → Table
  | [], result => result
  | symbol :: rest, result =>
    match venue.fetchTicker (_convert_symbol symbol) with
    | .ok p => indivLoop venue rest (result ++ [(symbol, p)])
    | .error _ => indivLoop venue rest result

/-- The loop over `tickers.items()` after the batched call of
`OKCoinAPI._fetch_prices`: look each venue-native key up in the local
`symbol_map` dict (native → requested symbol) and record the price under the
requested symbol; `if binance_symbol:` skips `None` and the empty string. -/
def batchCollect (smap : List (Str × Str)) : Table → Table → Table
  | [], result => result
  | (okcoin_symbol, p) :: rest, result =>
    match pyDictGet smap okcoin_symbol with
    | some binance_symbol =>
      if binance_symbol.isEmpty then batchCollect smap rest result
      else batchCollect smap rest (result ++ [(binance_symbol, p)])
    | none => batchCollect smap rest result

/-- Embedding of `OKCoinAPI._fetch_prices`, lines 228-288: the requested-symbols path.
Translate every requested symbol, keep those that exist as markets, fetch
them in one batched call, and fall back to per-symbol fetches when the
batch (or `load_markets`) raises or when the batch produced nothing.
`none` for the intermediate result models the jump to the `except` handler
of line 268. -/
def _fetch_prices_specified (venue : Venue) (symbols : List Str) : Table :=
  match venue.loadMarkets with
  | .error _ => indivLoop venue symbols []
  | .ok markets =>
    let okcoin_symbols := symbols.map _convert_symbol
    let valid_symbols := okcoin_symbols.filter (fun s => decide (s ∈ markets))
    let smap := (okcoin_symbols.zip symbols).filter (fun p => decide (p.1 ∈ markets))
    let afterBatch : Option Table :=
      if valid_symbols.isEmpty then some []
      else
        match venue.fetchTickersBatch valid_symbols with
        | .ok tickers => some (batchCollect smap tickers [])
        | .error _ => none
    match afterBatch with
    | none => indivLoop venue symbols []
    | some result =>
      if result.isEmpty && !symbols.isEmpty then indivLoop venue symbols []
      else result

/-- Embedding of `OKCoinAPI._fetch_prices`: with an empty request, try the full-venue bulk
call and return its re-keyed result; if that call raises, substitute the
keys of `symbol_map` as the requested list and continue on the
requested-symbols path. -/
def _fetch_prices (venue : Venue) (symbols : List Str) : Table :=
  if symbols.isEmpty then
    match venue.fetchTickers with
    | .ok tickers => bulkTable tickers []
    | .error _ => _fetch_prices_specified venue (symbol_map.map Prod.fst)
  else _fetch_prices_specified venue symbols

end OKCoinAPI

namespace BinanceAPI

/-- Embedding of `BinanceAPI.get_ticker_price`: fetch the ticker and return its `last`
price; any exception is caught and `None` is returned. -/
def get_ticker_price (venue : Venue) (symbol : Str) : Option Price :=
  match venue.fetchTicker symbol with
  | .ok p => some p
  | .error _ => none

/-- Embedding of `BinanceAPI.get_all_tickers`: bulk fetch, keeping the venue keys
unchanged; on any exception return the empty table. -/
def get_all_tickers (venue : Venue) : Table :=
  match venue.fetchTickers with
  | .ok tickers => tickers
  | .error _ => []

/-- The per-symbol loop of `BinanceAPI._fetch_prices`.  The `try` is
OUTSIDE the loop in the source, so the first symbol whose fetch raises
aborts the loop and the prices accumulated so far are returned. -/
def fetchLoop (venue : Venue) : List Str → Table → Table
  | [], result => result
  | symbol :: rest, result =>
    match venue.fetchTicker symbol with
    | .ok p => fetchLoop venue rest (result ++ [(symbol, p)])
    | .error _ => result

/-- Embedding of `BinanceAPI._fetch_prices`: with an empty request return the bulk
tickers verbatim (empty table if the bulk call raises); otherwise run the
per-symbol loop. -/
def _fetch_prices (venue : Venue) (symbols : List Str) : Table :=
  if symbols.isEmpty then
    match venue.fetchTickers with
    | .ok tickers => tickers
    | .error _ => []
  else fetchLoop venue symbols []

end BinanceAPI

namespace ExchangeAPI

/-- The per-iteration state of `ExchangeAPI._price_update_loop`:
the shared price table and `last_update_time`. -/
structure LoopState where
  prices : Table
  last_update_time : Nat

/-- One iteration of `ExchangeAPI._price_update_loop` as a function of the
outcome of the `self._fetch_prices(symbols)` call: if that call raises
(`Except.error`), the `except` branch leaves the state untouched; if it
returns a table, `self.prices` is replaced by it wholesale and the clock is
recorded.  (A callback exception is also caught by the same `except`, but
only after the assignment to `self.prices`, so it cannot undo it.) -/
def priceUpdateCycle (fetch : Except Str Table) (now : Nat)
    (st : LoopState) : LoopState :=
  match fetch with
  | .ok t => { prices := t, last_update_time := now }
  | .error _ => st

/-- The thread bookkeeping of an `ExchangeAPI` instance: the liveness of
every polling thread ever spawned by `start_price_update`, newest first
(`self._update_thread` refers to the head; `[]` models
`self._update_thread is None`). -/
structure ThreadState where
  tasks : List Bool

/-- Truth value of `self._update_thread and self._update_thread.is_alive()`. -/
def threadAlive (st : ThreadState) : Bool := st.tasks.head?.getD false

/-- Embedding of `ExchangeAPI.start_price_update`: return immediately when the current
update thread is alive, otherwise spawn a fresh polling thread. -/
def start_price_update (st : ThreadState) : ThreadState :=
  if threadAlive st then st else { tasks := true :: st.tasks }

/-- Number of live polling threads of the instance. -/
def liveTasks (st : ThreadState) : Nat := st.tasks.count true

/-- Invariant maintained by the instance: every thread but the current one
is dead (a thread is only replaced after it has been observed dead, and a
dead thread never revives). -/
def onlyHeadAlive (st : ThreadState) : Prop :=
  ∀ b ∈ st.tasks.tail, b = false

end ExchangeAPI

/-- The backend selected by the factory. -/
inductive ExchangeChoice where
  | binance : ExchangeChoice
  | okcoin : ExchangeChoice
deriving DecidableEq

/-- Embedding of `create_exchange_api`: lower-case the requested name, match it against
the fixed registry, and raise `ValueError(f"不支持的交易所: {exchange_name}")`
— with the already lower-cased name interpolated — for anything else. -/
def create_exchange_api (exchange_name : Str) : Except Str ExchangeChoice :=
  let n := pyLower exchange_name
  if n = "binance".data then .ok .binance
  else if n = "okcoin".data then .ok .okcoin
  else .error ("不支持的交易所: ".data ++ n)

/-- Whether `needle` occurs contiguously in `hay`. -/
def strContains (hay needle : Str) : Bool :=
  (List.range (hay.length + 1)).any
    (fun i => decide ((hay.drop i).take needle.length = needle))

/-! ## Library lemmas about the Python-dict model -/

theorem pyLookup_mem {α : Type} {l : List (Str × α)} {key : Str} {v : α}
    (h : pyLookup l key = some v) : (key, v) ∈ l := by
  induction l with
  | nil => simp [pyLookup] at h
  | cons e rest ih =>
    obtain ⟨k, w⟩ := e
    by_cases hk : key = k
    · subst hk
      have : w = v := by simpa [pyLookup] using h
      subst this
      exact List.mem_cons_self _ _
    · simp only [pyLookup, if_neg hk] at h
      exact List.mem_cons_of_mem _ (ih h)

theorem pyDictGet_mem {α : Type} {d : List (Str × α)} {key : Str} {v : α}
    (h : pyDictGet d key = some v) : (key, v) ∈ d :=
  List.mem_reverse.1 (pyLookup_mem h)

theorem pyLookup_eq_some {α : Type} {l : List (Str × α)} {key : Str} {v : α}
    (hmem : (key, v) ∈ l) (huniq : ∀ e ∈ l, e.1 = key → e.2 = v) :
    pyLookup l key = some v := by
  induction l with
  | nil => cases hmem
  | cons e rest ih =>
    obtain ⟨k, w⟩ := e
    by_cases hk : key = k
    · subst hk
      have : w = v := huniq (key, w) (List.mem_cons_self _ _) rfl
      simp [pyLookup, this]
    · rcases List.mem_cons.1 hmem with h | h
      · have : key = k := congrArg Prod.fst h
        exact absurd this hk
      · simp only [pyLookup, if_neg hk]
        exact ih h (fun e he hkey => huniq e (List.mem_cons_of_mem _ he) hkey)

theorem pyDictGet_eq_some {α : Type} {d : List (Str × α)} {key : Str} {v : α}
    (hmem : (key, v) ∈ d) (huniq : ∀ e ∈ d, e.1 = key → e.2 = v) :
    pyDictGet d key = some v :=
  pyLookup_eq_some (List.mem_reverse.2 hmem)
    (fun e he hkey => huniq e (List.mem_reverse.1 he) hkey)

/-! ## Symbol-translation lemmas -/

namespace OKCoinAPI

/-- Every explicit map entry maps a slash-free key to exactly the string the
fallback rule would produce for it. -/
theorem symbol_map_wf :
    ∀ p ∈ symbol_map, '/' ∉ p.1 ∧ p.2 = fallbackSplit p.1 := by decide

theorem pyReplaceDel_fallbackSplit {s : Str} (h : '/' ∉ s) :
    pyReplaceDel (fallbackSplit s) '/' = s := by
  unfold pyReplaceDel fallbackSplit pySliceDropLast4 pySliceLast4
  rw [List.filter_append]
  have h1 : (s.take (s.length - 4)).filter (fun a => decide (a ≠ '/'))
      = s.take (s.length - 4) := by
    apply List.filter_eq_self.2
    intro a ha
    exact decide_eq_true (fun heq => h (heq ▸ List.take_subset _ s ha))
  have h2 : ('/' :: s.drop (s.length - 4)).filter (fun a => decide (a ≠ '/'))
      = s.drop (s.length - 4) := by
    rw [List.filter_cons_of_neg]
    · apply List.filter_eq_self.2
      intro a ha
      exact decide_eq_true (fun heq => h (heq ▸ List.drop_subset _ s ha))
    · simp
  rw [h1, h2, List.take_append_drop]

theorem slash_mem_fallbackSplit (s : Str) : '/' ∈ fallbackSplit s := by
  unfold fallbackSplit
  exact List.mem_append_right _ (List.mem_cons_self _ _)

/-- On a slash-free input, `_convert_symbol` always produces the fallback
string — the explicit map agrees with the fallback rule on every key. -/
theorem convert_eq_fallbackSplit {s : Str} (h : '/' ∉ s) :
    _convert_symbol s = fallbackSplit s := by
  unfold _convert_symbol
  rw [if_neg h]
  cases hd : pyDictGet symbol_map s with
  | none => rfl
  | some v =>
    have hmem := pyDictGet_mem hd
    exact (symbol_map_wf (s, v) hmem).2

/-- The round-trip helper: deleting the slash undoes `_convert_symbol` on
any slash-free input, whether it went through the map or the fallback. -/
theorem roundtrip_of_no_slash {s : Str} (h : '/' ∉ s) :
    _reverse_convert_symbol (_convert_symbol s) = s := by
  rw [convert_eq_fallbackSplit h]
  unfold _reverse_convert_symbol
  rw [if_pos (slash_mem_fallbackSplit s)]
  cases hd : pyDictGet reverse_symbol_map (fallbackSplit s) with
  | none => exact pyReplaceDel_fallbackSplit h
  | some k =>
    have hmem := pyDictGet_mem hd
    have hsm : (k, fallbackSplit s) ∈ symbol_map := by
      unfold reverse_symbol_map at hmem
      obtain ⟨p, hp, he⟩ := List.mem_map.1 hmem
      have e1 : p.2 = fallbackSplit s := congrArg Prod.fst he
      have e2 : p.1 = k := congrArg Prod.snd he
      have : p = (k, fallbackSplit s) := by
        rw [← e1, ← e2]
      exact this ▸ hp
    obtain ⟨hk, hfk⟩ := symbol_map_wf _ hsm
    have : k = s := by
      have e1 := pyReplaceDel_fallbackSplit hk
      have e2 := pyReplaceDel_fallbackSplit h
      calc k = pyReplaceDel (fallbackSplit k) '/' := e1.symm
        _ = pyReplaceDel (fallbackSplit s) '/' := by rw [← hfk]
        _ = s := e2
    exact this

end OKCoinAPI

/-! ## Claims C6, C7, C9: symbol translation -/

/-- C6: for every canonical symbol present in the explicit backend
`symbol_map`, translating to the backend-native form and back is the
identity: `_reverse_convert_symbol (_convert_symbol S) = S`. -/
theorem c6_explicit_map_roundtrip :
    ∀ p ∈ OKCoinAPI.symbol_map,
      OKCoinAPI._reverse_convert_symbol (OKCoinAPI._convert_symbol p.1) = p.1 := by
  decide

theorem c6_explicit_map_roundtrip_witness :
    OKCoinAPI._reverse_convert_symbol (OKCoinAPI._convert_symbol ("BTCUSDT".data))
      = "BTCUSDT".data :=
  c6_explicit_map_roundtrip ("BTCUSDT".data, "BTC/USDT".data) (by decide)

/-- C7: for every canonical symbol absent from the explicit map and not
already in native form (no `'/'`), `_convert_symbol` applies the mechanical
fallback: it produces `s[:-4] ++ "/" ++ s[-4:]` in Python slice semantics. -/
theorem c7_fallback_rule (s : Str)
    (hmap : pyDictGet OKCoinAPI.symbol_map s = none) (hslash : '/' ∉ s) :
    OKCoinAPI._convert_symbol s = pySliceDropLast4 s ++ '/' :: pySliceLast4 s := by
  unfold OKCoinAPI._convert_symbol
  rw [if_neg hslash, hmap]
  rfl

theorem c7_fallback_rule_witness :
    OKCoinAPI._convert_symbol ("SOLBUSD".data)
      = pySliceDropLast4 ("SOLBUSD".data) ++ '/' :: pySliceLast4 ("SOLBUSD".data) :=
  c7_fallback_rule ("SOLBUSD".data) (by decide) (by decide)

/-- C9: for every string containing no `'/'` separator — fallback-only
symbols, the empty string and strings shorter than four characters
included — the OKCoin translator round-trip is the exact identity:
`_reverse_convert_symbol (_convert_symbol s) = s`. -/
theorem c9_universal_roundtrip (s : Str) (h : '/' ∉ s) :
    OKCoinAPI._reverse_convert_symbol (OKCoinAPI._convert_symbol s) = s :=
  OKCoinAPI.roundtrip_of_no_slash h

theorem c9_universal_roundtrip_witness :
    OKCoinAPI._reverse_convert_symbol (OKCoinAPI._convert_symbol ("AB".data))
      = "AB".data :=
  c9_universal_roundtrip ("AB".data) (by decide)

/-! ## Key lemmas for the canonical-keys invariant -/

namespace OKCoinAPI

/-- Fact: `_reverse_convert_symbol` never produces a key containing `'/'`. -/
theorem reverse_convert_no_slash (s : Str) : '/' ∉ _reverse_convert_symbol s := by
  unfold _reverse_convert_symbol
  by_cases h : '/' ∈ s
  · rw [if_pos h]
    cases hd : pyDictGet reverse_symbol_map s with
    | none =>
      intro hc
      unfold pyReplaceDel at hc
      have := (List.mem_filter.1 hc).2
      simp at this
    | some v =>
      have hmem := pyDictGet_mem hd
      unfold reverse_symbol_map at hmem
      obtain ⟨p, hp, he⟩ := List.mem_map.1 hmem
      have hv : p.1 = v := congrArg Prod.snd he
      exact hv ▸ (symbol_map_wf p hp).1
  · rw [if_neg h]
    exact h

/-- Every key `bulkTable` adds comes out of `_reverse_convert_symbol`,
hence is slash-free. -/
theorem bulkTable_no_slash (tickers : Table) :
    ∀ acc : Table, (∀ k ∈ acc.map Prod.fst, '/' ∉ k) →
      ∀ k ∈ (bulkTable tickers acc).map Prod.fst, '/' ∉ k := by
  induction tickers with
  | nil =>
    intro acc hacc
    exact hacc
  | cons e rest ih =>
    intro acc hacc
    obtain ⟨sym, p⟩ := e
    simp only [bulkTable]
    apply ih
    intro k hk
    rw [List.map_append] at hk
    rcases List.mem_append.1 hk with h | h
    · exact hacc k h
    · simp only [List.map_cons, List.map_nil, List.mem_singleton] at h
      exact h ▸ reverse_convert_no_slash sym

/-- Every key of an `indivLoop` result is an accumulator key or one of the
requested symbols. -/
theorem indivLoop_keys (venue : Venue) (syms : List Str) :
    ∀ acc : Table, ∀ k ∈ (indivLoop venue syms acc).map Prod.fst,
      k ∈ acc.map Prod.fst ∨ k ∈ syms := by
  induction syms with
  | nil =>
    intro acc k hk
    exact Or.inl hk
  | cons s rest ih =>
    intro acc k hk
    cases hv : venue.fetchTicker (_convert_symbol s) with
    | ok p =>
      simp only [indivLoop, hv] at hk
      rcases ih (acc ++ [(s, p)]) k hk with h | h
      · rw [List.map_append] at h
        rcases List.mem_append.1 h with h2 | h2
        · exact Or.inl h2
        · simp only [List.map_cons, List.map_nil, List.mem_singleton] at h2
          exact Or.inr (h2 ▸ List.mem_cons_self _ _)
      · exact Or.inr (List.mem_cons_of_mem _ h)
    | error e =>
      simp only [indivLoop, hv] at hk
      rcases ih acc k hk with h | h
      · exact Or.inl h
      · exact Or.inr (List.mem_cons_of_mem _ h)

/-- Every key of a `batchCollect` result is an accumulator key or the value
of some entry of the local native→requested dict. -/
theorem batchCollect_keys (smap : List (Str × Str)) (tickers : Table) :
    ∀ acc : Table, ∀ k ∈ (batchCollect smap tickers acc).map Prod.fst,
      k ∈ acc.map Prod.fst ∨ ∃ e ∈ smap, e.2 = k := by
  induction tickers with
  | nil =>
    intro acc k hk
    exact Or.inl hk
  | cons e rest ih =>
    intro acc k hk
    obtain ⟨nk, p⟩ := e
    cases hv : pyDictGet smap nk with
    | none =>
      simp only [batchCollect, hv] at hk
      exact ih acc k hk
    | some b =>
      by_cases hb : b.isEmpty
      · simp only [batchCollect, hv, if_pos hb] at hk
        exact ih acc k hk
      · simp only [batchCollect, hv, if_neg hb] at hk
        rcases ih (acc ++ [(b, p)]) k hk with h | h
        · rw [List.map_append] at h
          rcases List.mem_append.1 h with h2 | h2
          · exact Or.inl h2
          · simp only [List.map_cons, List.map_nil, List.mem_singleton] at h2
            exact Or.inr ⟨(nk, b), pyDictGet_mem hv, h2.symm⟩
        · exact Or.inr h

/-- Every key of `_fetch_prices_specified` is one of the requested symbols. -/
theorem fetch_specified_keys (venue : Venue) (syms : List Str) :
    ∀ k ∈ (_fetch_prices_specified venue syms).map Prod.fst, k ∈ syms := by
  intro k hk
  cases hm : venue.loadMarkets with
  | error e =>
    simp only [_fetch_prices_specified, hm] at hk
    rcases indivLoop_keys venue syms [] k hk with h | h
    · simp at h
    · exact h
  | ok markets =>
    simp only [_fetch_prices_specified, hm] at hk
    split at hk
    case h_1 heq =>
      rcases indivLoop_keys venue syms [] k hk with h | h
      · simp at h
      · exact h
    case h_2 result heq =>
      split at hk
      · rcases indivLoop_keys venue syms [] k hk with h | h
        · simp at h
        · exact h
      · split at heq
        · have : result = [] := by
            injection heq with h2
            exact h2.symm
          subst this
          simp at hk
        · split at heq
          case h_1 tickers hbatch =>
            have hres : result = batchCollect
                ((List.zip (syms.map _convert_symbol) syms).filter
                  (fun p => decide (p.1 ∈ markets))) tickers [] := by
              injection heq with h2
              exact h2.symm
            subst hres
            rcases batchCollect_keys _ tickers [] k hk with h | h
            · simp at h
            · obtain ⟨⟨e1, e2⟩, he, hek⟩ := h
              have hz := List.of_mem_zip (List.mem_filter.1 he).1
              exact hek ▸ hz.2
          case h_2 err hbatch =>
            cases heq

end OKCoinAPI

/-- Every key of the Binance per-symbol loop result is an accumulator key or
one of the requested symbols. -/
theorem BinanceAPI.fetchLoop_keys (venue : Venue) (syms : List Str) :
    ∀ acc : Table, ∀ k ∈ (BinanceAPI.fetchLoop venue syms acc).map Prod.fst,
      k ∈ acc.map Prod.fst ∨ k ∈ syms := by
  induction syms with
  | nil =>
    intro acc k hk
    exact Or.inl hk
  | cons s rest ih =>
    intro acc k hk
    cases hv : venue.fetchTicker s with
    | ok p =>
      simp only [BinanceAPI.fetchLoop, hv] at hk
      rcases ih (acc ++ [(s, p)]) k hk with h | h
      · rw [List.map_append] at h
        rcases List.mem_append.1 h with h2 | h2
        · exact Or.inl h2
        · simp only [List.map_cons, List.map_nil, List.mem_singleton] at h2
          exact Or.inr (h2 ▸ List.mem_cons_self _ _)
      · exact Or.inr (List.mem_cons_of_mem _ h)
    | error e =>
      simp only [BinanceAPI.fetchLoop, hv] at hk
      exact Or.inl hk

/-- The keys of the explicit map are slash-free canonical symbols. -/
theorem OKCoinAPI.symbol_map_keys_no_slash :
    ∀ s ∈ OKCoinAPI.symbol_map.map Prod.fst, '/' ∉ s := by decide

/-! ## Claim C2: canonical-form keys -/

/-- A venue whose bulk `fetch_tickers` answers with a ccxt-unified,
slash-separated key — the form ccxt actually returns for Binance too. -/
def nativeKeyVenue : Venue where
  fetchTickers := .ok [("BTC/USDT".data, 65000.0)]
  loadMarkets := .ok []
  fetchTickersBatch := fun _ => .ok []
  fetchTicker := fun _ => .error ("down".data)

/-- C2 counterexample: `BinanceAPI.get_all_tickers` keeps the venue keys
verbatim, so a slash-separated venue key appears as a table key — the table
key is not a canonical (separator-free) symbol, refuting the claim for the
Binance backend. -/
theorem c2_counterexample :
    ¬ (∀ k ∈ (BinanceAPI.get_all_tickers nativeKeyVenue).map Prod.fst,
        '/' ∉ k) := by
  intro h
  have hm : ("BTC/USDT".data)
      ∈ (BinanceAPI.get_all_tickers nativeKeyVenue).map Prod.fst := by
    show ("BTC/USDT".data) ∈ [("BTC/USDT".data)]
    exact List.mem_singleton.2 rfl
  exact h _ hm (by decide)

/-- C2 (amended): the OKCoin backend always re-keys by canonical
(separator-free) symbols — its `get_all_tickers` table and, whenever the
requested symbols are canonical, its `_fetch_prices` table have only
separator-free keys.  The Binance backend does not translate: its
`_fetch_prices` keys are either requested symbols or the venue bulk
keys taken verbatim, so they are canonical only when the venue keys are. -/
theorem c2_okcoin_canonical_keys (venue : Venue) (symbols : List Str)
    (hsyms : ∀ s ∈ symbols, '/' ∉ s) :
    (∀ k ∈ (OKCoinAPI.get_all_tickers venue).map Prod.fst, '/' ∉ k)
    ∧ (∀ k ∈ (OKCoinAPI._fetch_prices venue symbols).map Prod.fst, '/' ∉ k)
    ∧ (∀ k ∈ (BinanceAPI._fetch_prices venue symbols).map Prod.fst,
        k ∈ symbols ∨ k ∈ (BinanceAPI.get_all_tickers venue).map Prod.fst) := by
  refine ⟨?_, ?_, ?_⟩
  · intro k hk
    cases ht : venue.fetchTickers with
    | ok tickers =>
      simp only [OKCoinAPI.get_all_tickers, ht] at hk
      exact OKCoinAPI.bulkTable_no_slash tickers [] (by simp) k hk
    | error e =>
      simp only [OKCoinAPI.get_all_tickers, ht] at hk
      simp at hk
  · intro k hk
    by_cases he : symbols.isEmpty
    · simp only [OKCoinAPI._fetch_prices, he, if_pos] at hk
      cases ht : venue.fetchTickers with
      | ok tickers =>
        rw [ht] at hk
        exact OKCoinAPI.bulkTable_no_slash tickers [] (by simp) k hk
      | error e =>
        rw [ht] at hk
        exact OKCoinAPI.symbol_map_keys_no_slash k
          (OKCoinAPI.fetch_specified_keys venue _ k hk)
    · simp only [OKCoinAPI._fetch_prices, he, if_neg] at hk
      exact hsyms k (OKCoinAPI.fetch_specified_keys venue symbols k hk)
  · intro k hk
    by_cases he : symbols.isEmpty
    · simp only [BinanceAPI._fetch_prices, he, if_pos] at hk
      cases ht : venue.fetchTickers with
      | ok tickers =>
        rw [ht] at hk
        refine Or.inr ?_
        simp only [BinanceAPI.get_all_tickers, ht]
        exact hk
      | error e =>
        rw [ht] at hk
        simp at hk
    · simp only [BinanceAPI._fetch_prices, he, if_neg] at hk
      rcases BinanceAPI.fetchLoop_keys venue symbols [] k hk with h | h
      · simp at h
      · exact Or.inl h

theorem c2_okcoin_canonical_keys_witness :
    ("BTCUSDT".data) ∈ (OKCoinAPI.get_all_tickers nativeKeyVenue).map Prod.fst
    ∧ '/' ∉ ("BTCUSDT".data) :=
  ⟨by decide,
   (c2_okcoin_canonical_keys nativeKeyVenue ["BTCUSDT".data]
      (by decide)).1 ("BTCUSDT".data) (by decide)⟩

/-! ## Claim C3: one invalid symbol must not abort the rest -/

/-- Venue for the C3 counterexample: single-symbol fetches succeed for
`ETHUSDT` and raise for everything else (an invalid symbol). -/
def c3Venue : Venue where
  fetchTickers := .error ("down".data)
  loadMarkets := .error ("down".data)
  fetchTickersBatch := fun _ => .error ("down".data)
  fetchTicker := fun s =>
    if s = "ETHUSDT".data then .ok 3500.0 else .error ("bad symbol".data)

/-- C3 counterexample: for the Binance backend the `try` sits outside the
per-symbol loop, so the one invalid symbol `BADUSDT`, placed first, aborts
the loop and the valid symbol `ETHUSDT` — whose individual fetch succeeds —
is never fetched: the result is the empty table. -/
theorem c3_counterexample :
    c3Venue.fetchTicker ("ETHUSDT".data) = .ok 3500.0
    ∧ BinanceAPI._fetch_prices c3Venue ["BADUSDT".data, "ETHUSDT".data] = [] := by
  exact ⟨rfl, rfl⟩

namespace OKCoinAPI

/-- Injectivity: `_convert_symbol` is injective on slash-free strings. -/
theorem convert_inj {a b : Str} (ha : '/' ∉ a) (hb : '/' ∉ b)
    (h : _convert_symbol a = _convert_symbol b) : a = b := by
  have e1 := roundtrip_of_no_slash ha
  have e2 := roundtrip_of_no_slash hb
  rw [← e1, ← e2, h]

/-- Zipping a mapped copy of a list with the list itself pairs each element
with its image. -/
theorem mem_zip_map_self {f : Str → Str} :
    ∀ {l : List Str} {s : Str}, s ∈ l → (f s, s) ∈ (l.map f).zip l := by
  intro l
  induction l with
  | nil =>
    intro s h
    cases h
  | cons a rest ih =>
    intro s h
    rcases List.mem_cons.1 h with h | h
    · subst h
      exact List.mem_cons_self _ _
    · exact List.mem_cons_of_mem _ (ih h)

/-- Conversely, every entry of that zip is an element paired with its image. -/
theorem zip_map_self_entries {f : Str → Str} :
    ∀ {l : List Str} {e : Str × Str},
      e ∈ (l.map f).zip l → e.2 ∈ l ∧ e.1 = f e.2 := by
  intro l
  induction l with
  | nil =>
    intro e h
    cases h
  | cons a rest ih =>
    intro e h
    rcases List.mem_cons.1 h with h | h
    · subst h
      exact ⟨List.mem_cons_self _ _, rfl⟩
    · obtain ⟨h1, h2⟩ := ih h
      exact ⟨List.mem_cons_of_mem _ h1, h2⟩

/-- Accumulated keys survive `batchCollect`. -/
theorem batchCollect_acc_keys (smap : List (Str × Str)) :
    ∀ (tks acc : Table) (x : Str), x ∈ acc.map Prod.fst →
      x ∈ (batchCollect smap tks acc).map Prod.fst := by
  intro tks
  induction tks with
  | nil =>
    intro acc x hx
    exact hx
  | cons e rest ih =>
    intro acc x hx
    obtain ⟨k, p⟩ := e
    cases hv : pyDictGet smap k with
    | none =>
      simp only [batchCollect, hv]
      exact ih acc x hx
    | some b =>
      by_cases hb : b.isEmpty
      · simp only [batchCollect, hv, if_pos hb]
        exact ih acc x hx
      · simp only [batchCollect, hv, if_neg hb]
        refine ih (acc ++ [(b, p)]) x ?_
        rw [List.map_append]
        exact List.mem_append_left _ hx

/-- A batch entry whose native key resolves to a non-empty requested symbol
contributes that symbol as a key of the `batchCollect` result. -/
theorem batchCollect_mem_key (smap : List (Str × Str)) :
    ∀ (tks acc : Table) (k : Str) (p : Price) (b : Str),
      (k, p) ∈ tks → pyDictGet smap k = some b → b.isEmpty = false →
      b ∈ (batchCollect smap tks acc).map Prod.fst := by
  intro tks
  induction tks with
  | nil =>
    intro acc k p b hmem
    cases hmem
  | cons e rest ih =>
    intro acc k p b hmem hget hbne
    obtain ⟨k', p'⟩ := e
    rcases List.mem_cons.1 hmem with h | h
    · have hk : k' = k := (congrArg Prod.fst h).symm
      subst hk
      simp only [batchCollect, hget, hbne, Bool.false_eq_true, if_false]
      refine batchCollect_acc_keys smap rest (acc ++ [(b, p')]) b ?_
      rw [List.map_append]
      refine List.mem_append_right _ ?_
      simp
    · cases hv : pyDictGet smap k' with
      | none =>
        simp only [batchCollect, hv]
        exact ih acc k p b h hget hbne
      | some b' =>
        by_cases hb' : b'.isEmpty
        · simp only [batchCollect, hv, if_pos hb']
          exact ih acc k p b h hget hbne
        · simp only [batchCollect, hv, if_neg hb']
          exact ih (acc ++ [(b', p')]) k p b h hget hbne

end OKCoinAPI

/-- C3 (amended): for the OKCoin backend the claim holds — with canonical,
non-empty requested symbols of which exactly one (`bad`) is invalid (its
native form is not a market on the venue) while the others are valid and
batch-fetchable, `_fetch_prices` returns a table with a price for every
other symbol; the invalid symbol aborts nothing.  For the Binance backend
the claim fails (see the counterexample): its `try` encloses the whole
per-symbol loop, so the first failing symbol aborts the remaining fetches. -/
theorem c3_okcoin_single_invalid (venue : Venue) (symbols : List Str)
    (bad : Str) (markets : List Str) (f : Str → Price)
    (hm : venue.loadMarkets = .ok markets)
    (hbatch : ∀ l, venue.fetchTickersBatch l = .ok (l.map (fun v => (v, f v))))
    (hslash : ∀ s ∈ symbols, '/' ∉ s)
    (hne : ∀ s ∈ symbols, s.isEmpty = false)
    (hbadmem : bad ∈ symbols)
    (hbad : OKCoinAPI._convert_symbol bad ∉ markets)
    (hgood : ∀ s ∈ symbols, s ≠ bad → OKCoinAPI._convert_symbol s ∈ markets) :
    ∀ s ∈ symbols, s ≠ bad →
      s ∈ (OKCoinAPI._fetch_prices venue symbols).map Prod.fst := by
  intro s hs hsbad
  have hnonempty : symbols.isEmpty = false := by
    cases symbols with
    | nil => cases hbadmem
    | cons a rest => rfl
  have hfp : OKCoinAPI._fetch_prices venue symbols
      = OKCoinAPI._fetch_prices_specified venue symbols := by
    unfold OKCoinAPI._fetch_prices
    rw [hnonempty]
    rfl
  rw [hfp]
  -- names for the internally computed lists
  set g := OKCoinAPI._convert_symbol with hg
  set valid := (symbols.map g).filter (fun x => decide (x ∈ markets)) with hvalid
  set smap := ((symbols.map g).zip symbols).filter
      (fun p => decide (p.1 ∈ markets)) with hsmap
  have hvmem : g s ∈ valid := by
    rw [hvalid]
    refine List.mem_filter.2 ⟨List.mem_map_of_mem g hs, ?_⟩
    simpa using hgood s hs hsbad
  have hvne : valid.isEmpty = false := by
    cases hv : valid with
    | nil =>
      rw [hv] at hvmem
      cases hvmem
    | cons a rest => rfl
  -- the local symbol_map dict maps the native form of s back to s
  have hget : pyDictGet smap (g s) = some s := by
    refine pyDictGet_eq_some ?_ ?_
    · rw [hsmap]
      refine List.mem_filter.2 ⟨OKCoinAPI.mem_zip_map_self hs, ?_⟩
      simpa using hgood s hs hsbad
    · intro e he hkey
      rw [hsmap] at he
      obtain ⟨hmem2, heq2⟩ := OKCoinAPI.zip_map_self_entries (List.mem_filter.1 he).1
      refine OKCoinAPI.convert_inj (hslash e.2 hmem2) (hslash s hs) ?_
      rw [← hg, ← heq2, hkey]
  have hkeymem : s ∈ (OKCoinAPI.batchCollect smap
      (valid.map (fun v => (v, f v))) []).map Prod.fst := by
    refine OKCoinAPI.batchCollect_mem_key smap _ [] (g s) (f (g s)) s ?_ hget (hne s hs)
    exact List.mem_map_of_mem _ hvmem
  have hresne : (OKCoinAPI.batchCollect smap
      (valid.map (fun v => (v, f v))) []).isEmpty = false := by
    cases hr : OKCoinAPI.batchCollect smap (valid.map (fun v => (v, f v))) [] with
    | nil =>
      rw [hr] at hkeymem
      cases hkeymem
    | cons a rest => rfl
  have hspec : OKCoinAPI._fetch_prices_specified venue symbols
      = OKCoinAPI.batchCollect smap (valid.map (fun v => (v, f v))) [] := by
    unfold OKCoinAPI._fetch_prices_specified
    rw [hm]
    simp only [← hg, ← hvalid, ← hsmap, hvne, Bool.false_eq_true, if_false,
      hbatch valid, hresne, Bool.false_and]
  rw [hspec]
  exact hkeymem

theorem c3_okcoin_single_invalid_witness :
    ("ETHUSDT".data) ∈ (OKCoinAPI._fetch_prices
      { fetchTickers := .error ("down".data)
      , loadMarkets := .ok ["ETH/USDT".data]
      , fetchTickersBatch := fun l => .ok (l.map (fun v => (v, 3500.0)))
      , fetchTicker := fun _ => .error ("down".data) }
      ["ETHUSDT".data, "FOOUSDT".data]).map Prod.fst :=
  c3_okcoin_single_invalid _ _ ("FOOUSDT".data) ["ETH/USDT".data]
    (fun _ => 3500.0) rfl (fun _ => rfl) (by decide) (by decide) (by decide)
    (by decide) (by decide) ("ETHUSDT".data) (by decide) (by decide)

/-! ## Claim C1: replacement vs. retention of the shared table -/

/-- A venue on which every remote call raises. -/
def bulkFailVenue : Venue where
  fetchTickers := .error ("network down".data)
  loadMarkets := .error ("network down".data)
  fetchTickersBatch := fun _ => .error ("network down".data)
  fetchTicker := fun _ => .error ("network down".data)

/-- C1 counterexample: a cycle in which the remote bulk call throws does NOT
retain the previous table.  Both backends catch the remote exception inside
`_fetch_prices` and return the empty table, so the loop assignment runs
and replaces the non-empty previous table with the empty one — contradicting
"unchanged and in particular not empty". -/
theorem c1_counterexample :
    bulkFailVenue.fetchTickers = .error ("network down".data)
    ∧ (ExchangeAPI.priceUpdateCycle
        (.ok (BinanceAPI._fetch_prices bulkFailVenue [])) 1
        { prices := [("BTCUSDT".data, 65000.0)], last_update_time := 0 }).prices
      = []
    ∧ (ExchangeAPI.priceUpdateCycle
        (.ok (OKCoinAPI._fetch_prices bulkFailVenue [])) 1
        { prices := [("BTCUSDT".data, 65000.0)], last_update_time := 0 }).prices
      = []
    ∧ ([("BTCUSDT".data, 65000.0)] : Table) ≠ [] :=
  ⟨rfl, rfl, rfl, List.cons_ne_nil _ _⟩

/-- C1 (amended): at the loop level the dichotomy holds as claimed — a cycle
whose `_fetch_prices` call raises leaves the table untouched, and a cycle
whose call returns replaces the table wholesale with the result, even when
empty.  However, a remote bulk-call throw is not a raising fetch: both
backends absorb it inside `_fetch_prices`, and in particular the Binance
`_fetch_prices` then returns the empty table, which the cycle installs in
place of the previous table. -/
theorem c1_cycle_replacement (fetch : Except Str Table) (now : Nat)
    (st : ExchangeAPI.LoopState) (venue : Venue) (e : Str)
    (hv : venue.fetchTickers = .error e) :
    ((∀ e2, fetch = .error e2 →
        (ExchangeAPI.priceUpdateCycle fetch now st).prices = st.prices)
     ∧ (∀ t, fetch = .ok t →
        (ExchangeAPI.priceUpdateCycle fetch now st).prices = t))
    ∧ (ExchangeAPI.priceUpdateCycle
        (.ok (BinanceAPI._fetch_prices venue [])) now st).prices = [] := by
  refine ⟨⟨?_, ?_⟩, ?_⟩
  · intro e2 h
    subst h
    rfl
  · intro t h
    subst h
    rfl
  · show BinanceAPI._fetch_prices venue [] = []
    simp [BinanceAPI._fetch_prices, hv]

theorem c1_cycle_replacement_witness :
    (ExchangeAPI.priceUpdateCycle (.error ("boom".data)) 5
      { prices := [("BTCUSDT".data, 65000.0)], last_update_time := 0 }).prices
      = [("BTCUSDT".data, 65000.0)] :=
  ((c1_cycle_replacement (.error ("boom".data)) 5
      { prices := [("BTCUSDT".data, 65000.0)], last_update_time := 0 }
      bulkFailVenue ("network down".data) rfl).1).1 ("boom".data) rfl

/-! ## Claim C4: idempotent start -/

/-- C4: starting while a polling thread is alive is a no-op — two
consecutive `start_price_update`s with no intervening stop leave the same
state as one, with exactly one live polling task, and the
only-the-current-thread-can-be-alive invariant is preserved. -/
theorem c4_start_idempotent (st : ExchangeAPI.ThreadState)
    (hinv : ExchangeAPI.onlyHeadAlive st) :
    ExchangeAPI.start_price_update (ExchangeAPI.start_price_update st)
      = ExchangeAPI.start_price_update st
    ∧ ExchangeAPI.liveTasks (ExchangeAPI.start_price_update st) = 1
    ∧ ExchangeAPI.onlyHeadAlive (ExchangeAPI.start_price_update st) := by
  obtain ⟨tasks⟩ := st
  cases tasks with
  | nil =>
    refine ⟨rfl, rfl, ?_⟩
    intro b hb
    cases hb
  | cons b t =>
    have htail : ∀ x ∈ t, x = false := hinv
    have hcount : t.count true = 0 := by
      refine List.count_eq_zero.2 ?_
      intro hmem
      cases htail true hmem
    cases b with
    | true =>
      refine ⟨rfl, ?_, ?_⟩
      · show (true :: t).count true = 1
        rw [List.count_cons_self, hcount]
      · intro x hx
        exact htail x hx
    | false =>
      refine ⟨rfl, ?_, ?_⟩
      · show (true :: false :: t).count true = 1
        rw [List.count_cons_self, List.count_cons_of_ne (by simp), hcount]
      · intro x hx
        rcases List.mem_cons.1 hx with h | h
        · exact h
        · exact htail x h

theorem c4_start_idempotent_witness :
    ExchangeAPI.start_price_update
        (ExchangeAPI.start_price_update { tasks := [] })
      = ExchangeAPI.start_price_update { tasks := [] }
    ∧ ExchangeAPI.liveTasks
        (ExchangeAPI.start_price_update { tasks := [] }) = 1 :=
  ⟨(c4_start_idempotent { tasks := [] } (fun b hb => by cases hb)).1,
   (c4_start_idempotent { tasks := [] } (fun b hb => by cases hb)).2.1⟩

/-! ## Claim C5: the factory -/

theorem create_exchange_api_def (name : Str) :
    create_exchange_api name
      = if pyLower name = "binance".data then .ok .binance
        else if pyLower name = "okcoin".data then .ok .okcoin
        else .error ("不支持的交易所: ".data ++ pyLower name) := rfl

/-- C5 counterexample: for the attempted value `"UNKNOWN"` the raised
message interpolates the already lower-cased name, so it does not name the
attempted value itself — `"UNKNOWN"` does not occur in the message. -/
theorem c5_counterexample :
    ∃ m, create_exchange_api ("UNKNOWN".data) = .error m
      ∧ strContains m ("UNKNOWN".data) = false := by
  refine ⟨("不支持的交易所: unknown").data, rfl, by decide⟩

/-- C5 (amended): the factory matches the backend name case-insensitively
against the fixed registry; for every unrecognized name it raises an error
whose message names the LOWER-CASED attempted value (in particular, for any
all-lowercase attempt such as `"unknown"` the message names the attempted
value itself). -/
theorem c5_factory_registry (name : Str) :
    (pyLower name = "binance".data → create_exchange_api name = .ok .binance)
    ∧ (pyLower name = "okcoin".data → create_exchange_api name = .ok .okcoin)
    ∧ (pyLower name ≠ "binance".data → pyLower name ≠ "okcoin".data →
        ∃ pre, create_exchange_api name = .error (pre ++ pyLower name))
    ∧ (∃ m, create_exchange_api ("unknown".data) = .error m
        ∧ strContains m ("unknown".data) = true) := by
  refine ⟨?_, ?_, ?_, ?_⟩
  · intro h
    rw [create_exchange_api_def, if_pos h]
  · intro h
    rw [create_exchange_api_def, h, if_neg (by decide), if_pos rfl]
  · intro h1 h2
    rw [create_exchange_api_def, if_neg h1, if_neg h2]
    exact ⟨_, rfl⟩
  · exact ⟨("不支持的交易所: unknown").data, rfl, by decide⟩

theorem c5_factory_registry_witness :
    create_exchange_api ("BiNaNcE".data) = .ok .binance
    ∧ create_exchange_api ("OKCoin".data) = .ok .okcoin
    ∧ ∃ pre, create_exchange_api ("Kraken".data)
        = .error (pre ++ pyLower ("Kraken".data)) :=
  ⟨(c5_factory_registry ("BiNaNcE".data)).1 (by decide),
   (c5_factory_registry ("OKCoin".data)).2.1 (by decide),
   (c5_factory_registry ("Kraken".data)).2.2.1 (by decide) (by decide)⟩

/-! ## Claim C8: get_ticker_price fails soft -/

/-- C8: `get_ticker_price` of both backends is total (never raises): on a
venue error it returns `none`, and on success it returns the venue last
price for the (for OKCoin: translated) symbol. -/
theorem c8_get_ticker_price_soft (venue : Venue) (s : Str) :
    (∀ e, venue.fetchTicker s = .error e →
      BinanceAPI.get_ticker_price venue s = none)
    ∧ (∀ p, venue.fetchTicker s = .ok p →
      BinanceAPI.get_ticker_price venue s = some p)
    ∧ (∀ e, venue.fetchTicker (OKCoinAPI._convert_symbol s) = .error e →
      OKCoinAPI.get_ticker_price venue s = none)
    ∧ (∀ p, venue.fetchTicker (OKCoinAPI._convert_symbol s) = .ok p →
      OKCoinAPI.get_ticker_price venue s = some p) := by
  refine ⟨?_, ?_, ?_, ?_⟩ <;>
    intro x h <;>
    simp [BinanceAPI.get_ticker_price, OKCoinAPI.get_ticker_price, h]

/-- A venue where `ETHUSDT` succeeds raw and its translated form
`ETH/USDT` raises. -/
def c8Venue : Venue where
  fetchTickers := .error ("down".data)
  loadMarkets := .error ("down".data)
  fetchTickersBatch := fun _ => .error ("down".data)
  fetchTicker := fun s =>
    if s = "ETHUSDT".data then .ok 3500.0 else .error ("bad symbol".data)

theorem c8_get_ticker_price_soft_witness :
    BinanceAPI.get_ticker_price c8Venue ("ETHUSDT".data) = some 3500.0
    ∧ OKCoinAPI.get_ticker_price c8Venue ("ETHUSDT".data) = none :=
  ⟨(c8_get_ticker_price_soft c8Venue ("ETHUSDT".data)).2.1 3500.0 rfl,
   (c8_get_ticker_price_soft c8Venue ("ETHUSDT".data)).2.2.1
     ("bad symbol".data) rfl⟩

/-! ## Claim C10: empty request with failing bulk call -/

/-- C10: for the OKCoin backend, an empty request whose full-venue bulk call
raises is not answered with the empty table directly: the fifteen canonical
keys of the explicit `symbol_map` are substituted as the requested list and
the batched-then-individual path runs on them. -/
theorem c10_empty_request_fallback (venue : Venue) (e : Str)
    (hv : venue.fetchTickers = .error e) :
    OKCoinAPI._fetch_prices venue []
      = OKCoinAPI._fetch_prices_specified venue
          (OKCoinAPI.symbol_map.map Prod.fst)
    ∧ (OKCoinAPI.symbol_map.map Prod.fst).length = 15
    ∧ (∀ s ∈ OKCoinAPI.symbol_map.map Prod.fst, '/' ∉ s) := by
  refine ⟨?_, by decide, by decide⟩
  simp [OKCoinAPI._fetch_prices, hv]

/-- A venue whose bulk call raises but whose batched call works for the one
market it knows. -/
def c10Venue : Venue where
  fetchTickers := .error ("down".data)
  loadMarkets := .ok ["BTC/USDT".data]
  fetchTickersBatch := fun l => .ok (l.map (fun v => (v, 65000.0)))
  fetchTicker := fun _ => .error ("down".data)

theorem c10_empty_request_fallback_witness :
    OKCoinAPI._fetch_prices c10Venue []
      = OKCoinAPI._fetch_prices_specified c10Venue
          (OKCoinAPI.symbol_map.map Prod.fst) :=
  (c10_empty_request_fallback c10Venue ("down".data) rfl).1
